import Mathlib

/-!
Shallow embedding of the adjacent-parcel merge-by-owner algorithm
(src/data/scripts/merge_parcels.py) and of the geometry normalization
utilities (src/scripts/utils/geo_utils.py) of the hometownmap repository.

Modelling conventions:
* Python floats and ints are modelled as rationals.
* The external geometry engine (shapely / geopandas) is modelled by the
  abstract `GeoEngine` structure; an engine operation that can raise an
  exception returns an `Option`, `none` standing for the raised exception
  at its call site.  Where the Python code wraps a call in `try/except`,
  the embedding turns `none` into the handler's behaviour; where the call
  is unguarded, `none` propagates to the embedded function's result.
* A Python `dict` of GeoJSON properties is an association list queried by
  `pget` (`dict.get`, `None` for a missing key) and updated by `pset`
  (`d[k] = v`: replace in place if present, append otherwise).
* Python functions that mutate their argument in place (pandas column
  assignment `gdf[col] = ...`) are modelled in state-passing style: they
  return a pair `(returned value, caller-visible state of the argument
  after the call)`.
-/

/-- A Python value stored in a GeoJSON `properties` mapping.  A string
carries along the result of applying Python's `float` builtin to it
(`none` when that parse raises `ValueError`); `other` stands for any
further value, on which `float` raises `TypeError`. -/
inductive PVal where
  | null
  | num (q : ℚ)
  | str (s : String) (floatOf : Option ℚ)
  | vlist (l : List PVal)
  | other

/-- A Python dict of GeoJSON feature properties, as an ordered association
list (Python dicts preserve insertion order). -/
abbrev PropMap := List (String × PVal)

/-- `d.get(k)`: the value at the first matching key, `None` when absent. -/
def pget : PropMap → String → Option PVal
  | [], _ => none
  | (k', v) :: rest, k => if k' = k then some v else pget rest k

/-- `d[k] = v`: replace the value at an existing key in place, otherwise
append the new binding at the end (Python dict assignment). -/
def pset : PropMap → String → PVal → PropMap
  | [], k, v => [(k, v)]
  | (k', v') :: rest, k, v =>
    if k' = k then (k', v) :: rest else (k', v') :: pset rest k v

/-- Python truthiness of a property value (`bool(v)`). -/
def truthy : PVal → Bool
  | .null => false
  | .num q => if q = 0 then false else true
  | .str s _ => if s = "" then false else true
  | .vlist l => !l.isEmpty
  | .other => true

/-- Python's short-circuit `a or b` on property values. -/
def pyOr (a b : PVal) : PVal := if truthy a then a else b

/-- Is the value Python `None`? -/
def isNull : PVal → Bool
  | .null => true
  | _ => false

/-- `float(v)`, `none` when it raises (`ValueError`/`TypeError`). -/
def toFloat? : PVal → Option ℚ
  | .num q => some q
  | .str _ p => p
  | _ => none

/-- The underlying string of a string value.  The owner / address fields
this is applied to are strings (or `None`, replaced by `''` upstream)
in the repository's data; on any other value Python's `.strip()` would
raise, which is outside the modelled domain and mapped to `""`. -/
def pvalStr : PVal → String
  | .str s _ => s
  | _ => ""

/-- A GeoJSON feature: a raw geometry object of type `R` plus properties. -/
structure Feature (R : Type) where
  geometry : R
  properties : PropMap

/-- The abstract geometry engine (shapely / geopandas operations used by
the embedded code).  `Option`-valued operations may raise (`none`). -/
structure GeoEngine (R G : Type) where
  shape : R → Option G
  isValid : G → Bool
  makeValid : G → Option G
  touches : G → G → Option Bool
  intersects : G → G → Option Bool
  unaryUnion : List G → Option G
  mapping : G → R
  isEmptyG : G → Bool
  simplifyG : ℚ → Bool → G → G
  toMercator : G → G
  areaG : G → ℚ
  lengthG : G → ℚ
  geomType : G → String

/- ------------------------------------------------------------------ -/
/- merge_parcels.py                                                    -/
/- ------------------------------------------------------------------ -/

/-- Python `str.strip()`: drop leading and trailing whitespace. -/
def pyStrip (s : String) : String :=
  ⟨((s.data.dropWhile Char.isWhitespace).reverse.dropWhile Char.isWhitespace).reverse⟩

/-- Python `str.upper()` (ASCII case mapping suffices for this data). -/
def pyUpper (s : String) : String := ⟨s.data.map Char.toUpper⟩

/-- `get_owner_key` (merge_parcels.py:51-62): normalized
`OWNER|ADDRESS` key, `None` when the owner name is absent or empty. -/
def get_owner_key (properties : PropMap) : Option String :=
  let owner := pyUpper (pyStrip (pvalStr (pyOr (pyOr ((pget properties "ownername").getD .null)
      ((pget properties "OWNERNAME").getD .null)) (.str "" none))))
  let address := pyUpper (pyStrip (pvalStr (pyOr (pyOr ((pget properties "citystatez").getD .null)
      ((pget properties "CITYSTATEZ").getD .null)) (.str "" none))))
  if owner = "" then none
  else some (owner ++ "|" ++ address)

/-- The Python expression `a.touches(b) or a.intersects(b)`
(merge_parcels.py:80): short-circuit `or`; `none` when the evaluation
raises (in particular an exception from `touches` prevents `intersects`
from being evaluated at all). -/
def pyTouchOrIntersect (e : GeoEngine R G) (g h : G) : Option Bool :=
  match e.touches g h with
  | none => none
  | some true => some true
  | some false => e.intersects g h

/-- The guarded pairwise test of merge_parcels.py:78-84: an exception is
caught by the surrounding `try/except` and treated as no edge. -/
def pairEdge (e : GeoEngine R G) (g h : G) : Bool :=
  (pyTouchOrIntersect e g h).getD false

/-- The pairwise test applied to positions `i`, `j` of the geometry list
(only ever evaluated with `i < j < length`, matching the loop bounds). -/
def edgeB (e : GeoEngine R G) (gs : List G) (i j : Nat) : Bool :=
  match gs.get? i, gs.get? j with
  | some g, some h => pairEdge e g h
  | _, _ => false

/-- The adjacency sets of merge_parcels.py:75-84, as a neighbour list:
the loop runs over pairs `i < j` and records the edge in both
directions.  A Python set of small ints is modelled as the increasingly
ordered list of its elements; the connected-component partition is proved
independent of this enumeration order. -/
def adjFn (e : GeoEngine R G) (gs : List G) (i : Nat) : List Nat :=
  (List.range gs.length).filter
    (fun j => (decide (i < j) && edgeB e gs i j) || (decide (j < i) && edgeB e gs j i))

/-- The inner BFS `while queue:` loop of merge_parcels.py:98-107.
The loop provably terminates; the embedding uses explicit fuel, and
`find_adjacent_groups` supplies fuel proved sufficient below. -/
def bfsLoop (adj : Nat → List Nat) :
    Nat → List Nat → List Nat → List Nat → List Nat × List Nat
  | 0, _, visited, group => (visited, group)
  | _ + 1, [], visited, group => (visited, group)
  | fuel + 1, node :: rest, visited, group =>
    if node ∈ visited then bfsLoop adj fuel rest visited group
    else
      let visited' := node :: visited
      bfsLoop adj fuel (rest ++ (adj node).filter (fun m => ! decide (m ∈ visited')))
        visited' (group ++ [node])

/-- The outer `for start in range(n):` loop of merge_parcels.py:90-109. -/
def bfsAll (adj : Nat → List Nat) (fuel : Nat) :
    List Nat → List Nat → List (List Nat) → List Nat × List (List Nat)
  | [], visited, groups => (visited, groups)
  | start :: rest, visited, groups =>
    if start ∈ visited then bfsAll adj fuel rest visited groups
    else
      let p := bfsLoop adj fuel [start] visited []
      bfsAll adj fuel rest p.1 (groups ++ [p.2])

/-- `find_adjacent_groups` (merge_parcels.py:65-111): connected
components of the touch/intersect adjacency over the list positions. -/
def find_adjacent_groups (e : GeoEngine R G) (geometries : List G) : List (List Nat) :=
  let n := geometries.length
  if n ≤ 1 then (List.range n).map (fun i => [i])
  else (bfsAll (adjFn e geometries) ((n + 1) * (n + 1)) (List.range n) [] []).2

/-- The per-geometry repair step `if not geom.is_valid: geom =
make_valid(geom)` (merge_parcels.py:127-128 and 208-209). -/
def repairGeom (e : GeoEngine R G) (g : G) : Option G :=
  if e.isValid g then some g else e.makeValid g

/-- Parse one feature's geometry and repair it if invalid
(merge_parcels.py:125-128 / 206-209); `none` when `shape` or
`make_valid` raises. -/
def parseRepair (e : GeoEngine R G) (f : Feature R) : Option G :=
  (e.shape f.geometry).bind (repairGeom e)

/-- The successfully parsed (and repaired) geometries of a feature list,
in order, failures skipped (merge_parcels.py:123-132). -/
def parsedGeoms (e : GeoEngine R G) (features : List (Feature R)) : List G :=
  features.filterMap (parseRepair e)

/-- The recognized numeric property fields (merge_parcels.py:148). -/
def numeric_fields : List String :=
  ["gisacres", "GISACRES", "totalvalue", "TOTALVALUE",
   "landvalue", "LANDVALUE", "improvvalue", "IMPROVVALUE"]

/-- The per-field summation loop body of merge_parcels.py:150-157:
skip `None`, add `float(val)` when it parses, ignore parse failures. -/
def sumField (features : List (Feature R)) (field : String) : ℚ :=
  features.foldl (fun total f =>
    let val := (pget f.properties field).getD .null
    if isNull val then total else total + (toFloat? val).getD 0) 0

/-- One iteration of the `for field in numeric_fields:` loop
(merge_parcels.py:149-159): write the summed total only when positive. -/
def sumStep (features : List (Feature R)) (props : PropMap) (field : String) : PropMap :=
  let total := sumField features field
  if 0 < total then pset props field (.num total) else props

/-- `f['properties'].get('parcelid') or f['properties'].get('PARCELID')`
(merge_parcels.py:163). -/
def parcelIdOf (f : Feature R) : PVal :=
  pyOr ((pget f.properties "parcelid").getD .null) ((pget f.properties "PARCELID").getD .null)

/-- The property-aggregation block of merge_parcels.py:144-163: start
from a copy of the first member's properties, overwrite each recognized
numeric field whose component sum is positive, then attach the merge
metadata. -/
def aggProps (f0 : Feature R) (features : List (Feature R)) : PropMap :=
  let base := f0.properties
  let withSums := numeric_fields.foldl (sumStep features) base
  pset (pset withSums "_merged_count" (.num features.length))
    "_merged_parcels" (.vlist (features.map parcelIdOf))

/-- `merge_features` (merge_parcels.py:114-169).  `none` models the
`IndexError` Python would raise on an empty argument (never reached by
`merge_parcels`, which only passes nonempty lists). -/
def merge_features (e : GeoEngine R G) : List (Feature R) → Option (Feature R)
  | [] => none
  | [f] => some f
  | f0 :: f1 :: rest =>
    let features := f0 :: f1 :: rest
    match parsedGeoms e features with
    | [] => some f0
    | g0 :: gs =>
      let merged_geom := (e.unaryUnion (g0 :: gs)).getD g0
      some ⟨e.mapping merged_geom, aggProps f0 features⟩

/-- The `enumerate`-based pairing of merge_parcels.py:215-216: positions
and values of the successfully parsed geometries. -/
def validPairs (e : GeoEngine R G) (owner_features : List (Feature R)) : List (Nat × G) :=
  ((owner_features.map (parseRepair e)).enum).filterMap
    (fun p => p.2.map (fun g => (p.1, g)))

/-- The body of the per-owner-group loop of merge_parcels.py:197-237. -/
def processGroup (e : GeoEngine R G) (owner_features : List (Feature R)) : List (Feature R) :=
  if owner_features.length = 1 then owner_features
  else
    let pairs := validPairs e owner_features
    let valid_indices := pairs.map (fun p => p.1)
    let valid_geoms := pairs.map (fun p => p.2)
    if valid_geoms.length ≤ 1 then owner_features
    else
      let adjacent_groups := find_adjacent_groups e valid_geoms
      (adjacent_groups.map (fun group_indices =>
        let group_features : List (Feature R) := group_indices.filterMap
          (fun i => (valid_indices.get? i).bind (fun oi => owner_features.get? oi))
        if 1 < group_features.length then (merge_features e group_features).toList
        else group_features)).flatten

/-- `owner_groups[key].append(f)` on an insertion-ordered dict
(merge_parcels.py:180-186). -/
def insertGroup (k : String) (f : Feature R) :
    List (String × List (Feature R)) → List (String × List (Feature R))
  | [] => [(k, [f])]
  | (k', fs) :: rest =>
    if k' = k then (k', fs ++ [f]) :: rest else (k', fs) :: insertGroup k f rest

/-- The grouping loop of merge_parcels.py:180-188: owner groups in
first-occurrence order plus the `no_owner` residual in input order. -/
def groupByOwner (features : List (Feature R)) :
    List (String × List (Feature R)) × List (Feature R) :=
  features.foldl (fun acc f =>
    match get_owner_key f.properties with
    | some k => (insertGroup k f acc.1, acc.2)
    | none => (acc.1, acc.2 ++ [f])) ([], [])

/-- `merge_parcels` (merge_parcels.py:172-248), on the `features` list of
the input collection. -/
def merge_parcels (e : GeoEngine R G) (features : List (Feature R)) : List (Feature R) :=
  let p := groupByOwner features
  (p.1.map (fun kg => processGroup e kg.2)).flatten ++ p.2

/- ------------------------------------------------------------------ -/
/- geo_utils.py                                                        -/
/- ------------------------------------------------------------------ -/

/-- `validate_geometries` with `fix=True` (geo_utils.py:58-90) on the
geometry column.  `none` models an uncaught exception from `make_valid`
(the `apply` there is unguarded).  Note `geom and not geom.is_valid`:
an empty (falsy) geometry is left untouched. -/
def validate_geometries (e : GeoEngine R G) (gdf : List G) : Option (List G) :=
  if gdf.all e.isValid then some gdf
  else
    match gdf.mapM (fun g =>
        if !(e.isEmptyG g) && !(e.isValid g) then e.makeValid g else some g) with
    | none => none
    | some fixed =>
      if fixed.all e.isValid then some fixed else some (fixed.filter e.isValid)

/-- `simplify_geometries` (geo_utils.py:93-123): writes the simplified
geometries back into the caller's frame (`gdf['geometry'] = ...`) and
returns that same frame.  First component: returned frame; second:
caller-visible state of the input argument after the call.  The
vertex-count report feeds logging only and is not modelled. -/
def simplify_geometries (e : GeoEngine R G) (tolerance : ℚ) (preserve_topology : Bool)
    (gdf : List G) : List G × List G :=
  let newGeom := gdf.map (e.simplifyG tolerance preserve_topology)
  (newGeom, newGeom)

/-- Does the pattern (first argument) start the second list? -/
def startsWithL : List Char → List Char → Bool
  | [], _ => true
  | _ :: _, [] => false
  | p :: ps, c :: cs => (p = c) && startsWithL ps cs

/-- Does the pattern occur as a contiguous run of the list? -/
def hasSubL (pat : List Char) : List Char → Bool
  | [] => startsWithL pat []
  | c :: cs => startsWithL pat (c :: cs) || hasSubL pat cs

/-- Substring test (Python's `sub in s`). -/
def strContains (s sub : String) : Bool := hasSubL sub.data s.data

/-- `add_area_length_fields` (geo_utils.py:215-244): compute metric
area/length on a reprojected copy and attach the fields onto the
caller's frame (`gdf['area_sqm'] = ...` is in-place column assignment).
`none` models the `IndexError` of `.iloc[0]` on an empty frame.  Result
pair as in `simplify_geometries`. -/
def add_area_length_fields (e : GeoEngine R G) (gdf : List (G × PropMap)) :
    Option ((List (G × PropMap)) × (List (G × PropMap))) :=
  match gdf with
  | [] => none
  | row0 :: _ =>
    let geom_type := e.geomType (e.toMercator row0.1)
    if strContains geom_type "Polygon" then
      let out := gdf.map (fun r =>
        let sqm := e.areaG (e.toMercator r.1)
        (r.1, pset (pset r.2 "area_sqm" (.num sqm))
          "area_acres" (.num (sqm * (247105 / 1000000000)))))
      some (out, out)
    else if strContains geom_type "LineString" then
      let out := gdf.map (fun r =>
        let mlen := e.lengthG (e.toMercator r.1)
        (r.1, pset (pset r.2 "length_m" (.num mlen))
          "length_ft" (.num (mlen * (328084 / 100000)))))
      some (out, out)
    else some (gdf, gdf)

/-- `merge_features` in state-passing form: the Python function builds a
fresh properties dict (`dict(features[0]['properties'])`) and new lists,
and never assigns into its argument, so the caller-visible state of the
input after the call is the input itself. -/
def merge_features_effect (e : GeoEngine R G) (features : List (Feature R)) :
    Option (Feature R) × List (Feature R) :=
  (merge_features e features, features)

/- ------------------------------------------------------------------ -/
/- Basic lemmas about the property map                                 -/
/- ------------------------------------------------------------------ -/

theorem pget_pset_self (m : PropMap) (k : String) (v : PVal) :
    pget (pset m k v) k = some v := by
  induction m with
  | nil => simp [pset, pget]
  | cons hd tl ih =>
    obtain ⟨k', v'⟩ := hd
    by_cases h : k' = k
    · simp [pset, pget, h]
    · simp [pset, pget, h, ih]

theorem pget_pset_ne (m : PropMap) (k k' : String) (v : PVal) (h : k ≠ k') :
    pget (pset m k v) k' = pget m k' := by
  induction m with
  | nil => simp [pset, pget, h]
  | cons hd tl ih =>
    obtain ⟨k0, v0⟩ := hd
    by_cases h0 : k0 = k
    · subst h0
      simp [pset, pget, h]
    · simp [pset, pget, h0, ih]

/- ------------------------------------------------------------------ -/
/- Lemmas about property aggregation (merge_parcels.py:144-169)        -/
/- ------------------------------------------------------------------ -/

theorem numeric_fields_nodup : numeric_fields.Nodup := by decide

theorem mem_numeric_ne_meta :
    ∀ field ∈ numeric_fields, field ≠ "_merged_count" ∧ field ≠ "_merged_parcels" := by
  decide

theorem foldl_sumStep_not_mem (features : List (Feature R)) (field : String) :
    ∀ (l : List String) (base : PropMap), field ∉ l →
      pget (l.foldl (sumStep features) base) field = pget base field := by
  intro l
  induction l with
  | nil => intro base _; rfl
  | cons f' l' ih =>
    intro base hf
    have h1 : field ∉ l' := fun h => hf (List.mem_cons_of_mem _ h)
    have h2 : f' ≠ field := fun h => hf (h ▸ List.mem_cons_self _ _)
    rw [List.foldl_cons, ih _ h1]
    by_cases h3 : 0 < sumField features f'
    · simp [sumStep, h3, pget_pset_ne _ _ _ _ h2]
    · simp [sumStep, h3]

theorem foldl_sumStep_mem (features : List (Feature R)) (field : String) :
    ∀ (l : List String) (base : PropMap), l.Nodup → field ∈ l →
      pget (l.foldl (sumStep features) base) field =
        if 0 < sumField features field then some (.num (sumField features field))
        else pget base field := by
  intro l
  induction l with
  | nil => intro base _ hf; cases hf
  | cons f' l' ih =>
    intro base hnd hf
    rcases List.mem_cons.mp hf with heq | hmem
    · subst heq
      have hnotin : field ∉ l' := (List.nodup_cons.mp hnd).1
      rw [List.foldl_cons, foldl_sumStep_not_mem features field l' _ hnotin]
      by_cases h3 : 0 < sumField features field
      · simp [sumStep, h3, pget_pset_self]
      · simp [sumStep, h3]
    · have hnd' := (List.nodup_cons.mp hnd).2
      have hne : f' ≠ field := fun h => (List.nodup_cons.mp hnd).1 (h ▸ hmem)
      rw [List.foldl_cons, ih _ hnd' hmem]
      have hstep : pget (sumStep features base f') field = pget base field := by
        by_cases h3 : 0 < sumField features f'
        · simp [sumStep, h3, pget_pset_ne _ _ _ _ hne]
        · simp [sumStep, h3]
      rw [hstep]

theorem aggProps_pget (f0 : Feature R) (features : List (Feature R)) (field : String)
    (hf : field ∈ numeric_fields) :
    pget (aggProps f0 features) field =
      if 0 < sumField features field then some (.num (sumField features field))
      else pget f0.properties field := by
  obtain ⟨h1, h2⟩ := mem_numeric_ne_meta field hf
  simp only [aggProps]
  rw [pget_pset_ne _ _ _ _ (Ne.symm h2), pget_pset_ne _ _ _ _ (Ne.symm h1),
    foldl_sumStep_mem features field numeric_fields f0.properties numeric_fields_nodup hf]

theorem merge_features_parsed (e : GeoEngine R G) (f0 f1 : Feature R)
    (rest : List (Feature R)) (g0 : G) (gs : List G)
    (h : parsedGeoms e (f0 :: f1 :: rest) = g0 :: gs) :
    merge_features e (f0 :: f1 :: rest) =
      some ⟨e.mapping ((e.unaryUnion (g0 :: gs)).getD g0),
        aggProps f0 (f0 :: f1 :: rest)⟩ := by
  simp only [merge_features, h]

theorem sumField_eq_foldl (fs : List (Feature R)) (field : String) :
    sumField fs field =
      (fs.map (fun f => pget f.properties field)).foldl
        (fun total ov =>
          let val := ov.getD .null
          if isNull val then total else total + (toFloat? val).getD 0) 0 := by
  rw [List.foldl_map]
  rfl

theorem sumField_congr (fs fs' : List (Feature R)) (field : String)
    (h : fs.map (fun f => pget f.properties field)
       = fs'.map (fun f => pget f.properties field)) :
    sumField fs field = sumField fs' field := by
  rw [sumField_eq_foldl, sumField_eq_foldl, h]

/- ------------------------------------------------------------------ -/
/- Concrete engines and data used by witnesses and counterexamples     -/
/- ------------------------------------------------------------------ -/

/-- A fully well-behaved engine on `Nat` geometries: everything parses,
everything is valid, every pair touches, unions return the first input. -/
def egBasic : GeoEngine Nat Nat :=
  ⟨some, fun _ => true, some, fun _ _ => some true, fun _ _ => some false,
   fun l => l.head?, id, fun _ => false, fun _ _ g => g, id,
   fun g => (g : ℚ), fun g => (g : ℚ), fun _ => "Polygon"⟩

/-- Like `egBasic`, but the union operation always raises. -/
def egUnionFail : GeoEngine Nat Nat :=
  ⟨some, fun _ => true, some, fun _ _ => some true, fun _ _ => some false,
   fun _ => none, id, fun _ => false, fun _ _ g => g, id,
   fun g => (g : ℚ), fun g => (g : ℚ), fun _ => "Polygon"⟩

/-- Like `egBasic`, but geometry `13` fails to parse (`shape` raises). -/
def egParse13 : GeoEngine Nat Nat :=
  ⟨fun r => if r = 13 then none else some r, fun _ => true, some,
   fun _ _ => some true, fun _ _ => some false, fun l => l.head?, id,
   fun _ => false, fun _ _ g => g, id, fun g => (g : ℚ), fun g => (g : ℚ),
   fun _ => "Polygon"⟩

def fz0 : Feature Nat := ⟨0, [("gisacres", PVal.num 0)]⟩

def fz1 : Feature Nat := ⟨1, [("gisacres", PVal.num 0)]⟩

/- ------------------------------------------------------------------ -/
/- C1                                                                  -/
/- ------------------------------------------------------------------ -/

/-- C1 counterexample: a component of two members whose acreage values
are `[0, 0]`.  The summed total `0` is indeed not written, but the
merged feature still carries `gisacres = 0`, inherited from the copy of
the first member's properties — the field is not absent from the merged
output as the claim states. -/
theorem zero_sum_field_still_present :
    sumField [fz0, fz1] "gisacres" = 0 ∧
    ∃ m, merge_features egBasic [fz0, fz1] = some m ∧
      pget m.properties "gisacres" = some (.num 0) := by
  have hsum : sumField [fz0, fz1] "gisacres" = 0 := by
    simp [fz0, fz1, sumField, pget, isNull, toFloat?]
  refine ⟨hsum, _, merge_features_parsed egBasic fz0 fz1 [] 0 [1] rfl, ?_⟩
  show pget (aggProps fz0 [fz0, fz1]) "gisacres" = some (.num 0)
  rw [aggProps_pget fz0 [fz0, fz1] "gisacres" (by decide), hsum]
  simp [fz0, pget]

/-- C1 (amended): for a merged component of size at least 2 with at
least one member geometry parsing, each recognized numeric field of the
merged feature equals the sum of the parseable numeric member values
when that sum is strictly positive (None and unparseable values
contributing nothing); when the sum is not positive the summed value is
not written and the field instead retains the first member's original
entry (so it is absent only if the first member lacked the field). -/
theorem merged_numeric_field_value (e : GeoEngine R G) (f0 f1 : Feature R)
    (rest : List (Feature R)) (field : String) (hf : field ∈ numeric_fields)
    (g0 : G) (gs : List G) (hp : parsedGeoms e (f0 :: f1 :: rest) = g0 :: gs) :
    ∃ m, merge_features e (f0 :: f1 :: rest) = some m ∧
      pget m.properties field =
        (if 0 < sumField (f0 :: f1 :: rest) field
         then some (.num (sumField (f0 :: f1 :: rest) field))
         else pget f0.properties field) := by
  exact ⟨_, merge_features_parsed e f0 f1 rest g0 gs hp,
    aggProps_pget f0 (f0 :: f1 :: rest) field hf⟩

def fa0 : Feature Nat := ⟨0, [("gisacres", PVal.num 3)]⟩

def fa1 : Feature Nat := ⟨1, [("gisacres", PVal.num (5 / 2))]⟩

def fa2 : Feature Nat := ⟨2, [("gisacres", PVal.null)]⟩

/-- Witness for C1 (amended) at the spec's own example `[3.0, 2.5, None]`:
the merged acreage equals the sum `5.5`. -/
theorem merged_numeric_field_value_witness :
    sumField [fa0, fa1, fa2] "gisacres" = 11 / 2 ∧
    ∃ m, merge_features egBasic [fa0, fa1, fa2] = some m ∧
      pget m.properties "gisacres" =
        (if 0 < sumField [fa0, fa1, fa2] "gisacres"
         then some (.num (sumField [fa0, fa1, fa2] "gisacres"))
         else pget fa0.properties "gisacres") := by
  constructor
  · simp [fa0, fa1, fa2, sumField, pget, isNull, toFloat?]
    norm_num
  · exact merged_numeric_field_value egBasic fa0 fa1 [fa2] "gisacres" (by decide)
      0 [1, 2] rfl

/- ------------------------------------------------------------------ -/
/- C10                                                                 -/
/- ------------------------------------------------------------------ -/

/-- C10: the all-lowercase and all-uppercase variants of a recognized
numeric field name are summed independently and written as separate
output fields, each under its own greater-than-zero check, and the sum
for a field name depends only on the member values stored under exactly
that field name (never on the other case variant). -/
theorem case_variant_fields_independent (e : GeoEngine R G) (f0 f1 : Feature R)
    (rest : List (Feature R)) (g0 : G) (gs : List G)
    (hp : parsedGeoms e (f0 :: f1 :: rest) = g0 :: gs) :
    (∃ m, merge_features e (f0 :: f1 :: rest) = some m ∧
      pget m.properties "gisacres" =
        (if 0 < sumField (f0 :: f1 :: rest) "gisacres"
         then some (.num (sumField (f0 :: f1 :: rest) "gisacres"))
         else pget f0.properties "gisacres") ∧
      pget m.properties "GISACRES" =
        (if 0 < sumField (f0 :: f1 :: rest) "GISACRES"
         then some (.num (sumField (f0 :: f1 :: rest) "GISACRES"))
         else pget f0.properties "GISACRES")) ∧
    (∀ (fs' : List (Feature R)) (field : String),
      (f0 :: f1 :: rest).map (fun f => pget f.properties field)
        = fs'.map (fun f => pget f.properties field) →
      sumField (f0 :: f1 :: rest) field = sumField fs' field) := by
  refine ⟨⟨_, merge_features_parsed e f0 f1 rest g0 gs hp,
    aggProps_pget f0 (f0 :: f1 :: rest) "gisacres" (by decide),
    aggProps_pget f0 (f0 :: f1 :: rest) "GISACRES" (by decide)⟩, ?_⟩
  intro fs' field h
  exact sumField_congr _ _ _ h

def fb0 : Feature Nat := ⟨0, [("gisacres", PVal.num 1), ("GISACRES", PVal.num 7)]⟩

def fb1 : Feature Nat := ⟨1, [("gisacres", PVal.num 1), ("GISACRES", PVal.num 9)]⟩

def fb1' : Feature Nat := ⟨1, [("gisacres", PVal.num 1), ("GISACRES", PVal.num 4)]⟩

/-- Witness for C10: concrete members carrying both case variants; the
lowercase sum is unchanged when the uppercase values are replaced. -/
theorem case_variant_fields_independent_witness :
    (∃ m, merge_features egBasic [fb0, fb1] = some m ∧
      pget m.properties "gisacres" =
        (if 0 < sumField [fb0, fb1] "gisacres"
         then some (.num (sumField [fb0, fb1] "gisacres"))
         else pget fb0.properties "gisacres") ∧
      pget m.properties "GISACRES" =
        (if 0 < sumField [fb0, fb1] "GISACRES"
         then some (.num (sumField [fb0, fb1] "GISACRES"))
         else pget fb0.properties "GISACRES")) ∧
    sumField [fb0, fb1] "gisacres" = sumField [fb0, fb1'] "gisacres" := by
  have h := case_variant_fields_independent egBasic fb0 fb1 [] 0 [1] rfl
  exact ⟨h.1, h.2 [fb0, fb1'] "gisacres" rfl⟩

/- ------------------------------------------------------------------ -/
/- C5                                                                  -/
/- ------------------------------------------------------------------ -/

/-- C5: if the union of a component's parsed member geometries raises,
`merge_features` falls back to the first parsed member geometry and
still returns a feature whose properties are aggregated exactly as in
the success path (the embedding is total, so no exception propagates). -/
theorem union_failure_first_geometry_fallback (e : GeoEngine R G)
    (f0 f1 : Feature R) (rest : List (Feature R)) (g0 : G) (gs : List G)
    (hp : parsedGeoms e (f0 :: f1 :: rest) = g0 :: gs)
    (hu : e.unaryUnion (g0 :: gs) = none) :
    merge_features e (f0 :: f1 :: rest) =
      some ⟨e.mapping g0, aggProps f0 (f0 :: f1 :: rest)⟩ := by
  rw [merge_features_parsed e f0 f1 rest g0 gs hp, hu]
  rfl

/-- Witness for C5: an engine whose union always raises still yields a
merged feature, carrying the first member's geometry. -/
theorem union_failure_first_geometry_fallback_witness :
    merge_features egUnionFail [⟨3, []⟩, ⟨4, []⟩] =
      some ⟨egUnionFail.mapping 3, aggProps ⟨3, []⟩ [⟨3, []⟩, ⟨4, []⟩]⟩ :=
  union_failure_first_geometry_fallback egUnionFail ⟨3, []⟩ ⟨4, []⟩ [] 3 [4] rfl rfl

/- ------------------------------------------------------------------ -/
/- C7                                                                  -/
/- ------------------------------------------------------------------ -/

/-- C7: geometry repair is the identity on already-valid geometries, at
both repair sites.  The per-geometry repair of the merge path returns a
valid geometry unchanged and is idempotent on it, and the bulk
`validate_geometries` transform returns an all-valid collection
unchanged, twice over. -/
theorem repair_identity_on_valid (e : GeoEngine R G) (g : G)
    (hg : e.isValid g = true) (gdf : List G) (hgdf : gdf.all e.isValid = true) :
    repairGeom e g = some g ∧
    (repairGeom e g).bind (repairGeom e) = some g ∧
    validate_geometries e gdf = some gdf ∧
    (validate_geometries e gdf).bind (validate_geometries e) = some gdf := by
  have h1 : repairGeom e g = some g := by simp [repairGeom, hg]
  have h2 : validate_geometries e gdf = some gdf := by simp [validate_geometries, hgdf]
  refine ⟨h1, ?_, h2, ?_⟩
  · rw [h1, Option.some_bind, h1]
  · rw [h2, Option.some_bind, h2]

/-- Witness for C7 on a concrete valid geometry and all-valid frame. -/
theorem repair_identity_on_valid_witness :
    repairGeom egBasic 5 = some 5 ∧
    (repairGeom egBasic 5).bind (repairGeom egBasic) = some 5 ∧
    validate_geometries egBasic [1, 2] = some [1, 2] ∧
    (validate_geometries egBasic [1, 2]).bind (validate_geometries egBasic) = some [1, 2] :=
  repair_identity_on_valid egBasic 5 rfl [1, 2] rfl

/- ------------------------------------------------------------------ -/
/- C9                                                                  -/
/- ------------------------------------------------------------------ -/

theorem enumFrom_filterMap_snd {G : Type} (l : List (Option G)) :
    ∀ k, (((l.enumFrom k).filterMap (fun p => p.2.map (fun g => (p.1, g)))).map
      (fun p => p.2)) = l.filterMap id := by
  induction l with
  | nil => intro k; rfl
  | cons a t ih =>
    intro k
    cases a with
    | none => simp [List.enumFrom, List.filterMap_cons, ih]
    | some g => simp [List.enumFrom, List.filterMap_cons, ih]

theorem validPairs_snd (e : GeoEngine R G) (fs : List (Feature R)) :
    (validPairs e fs).map (fun p => p.2) = parsedGeoms e fs := by
  unfold validPairs parsedGeoms
  rw [show (fs.map (parseRepair e)).enum = (fs.map (parseRepair e)).enumFrom 0 from rfl,
    enumFrom_filterMap_snd, List.filterMap_map]
  rfl

/-- C9: an owner group of two or more features in which at most one
member geometry parses (and repairs) successfully is appended to the
output unchanged: no union, no property aggregation, no metadata. -/
theorem unparsed_group_passthrough (e : GeoEngine R G)
    (owner_features : List (Feature R)) (h2 : 2 ≤ owner_features.length)
    (hv : (parsedGeoms e owner_features).length ≤ 1) :
    processGroup e owner_features = owner_features := by
  simp only [processGroup]
  have hne : ¬ owner_features.length = 1 := by omega
  rw [if_neg hne]
  have hlen : ((validPairs e owner_features).map (fun p => p.2)).length ≤ 1 := by
    rw [validPairs_snd]; exact hv
  rw [if_pos hlen]

/-- Witness for C9: a two-feature group with one unparseable geometry
passes through unchanged. -/
theorem unparsed_group_passthrough_witness :
    processGroup egParse13 [⟨13, []⟩, ⟨2, []⟩] = [⟨13, []⟩, ⟨2, []⟩] :=
  unparsed_group_passthrough egParse13 [⟨13, []⟩, ⟨2, []⟩] (by decide) (by decide)

/- ------------------------------------------------------------------ -/
/- C6                                                                  -/
/- ------------------------------------------------------------------ -/

theorem groupByOwner_step_residual (l : List (Feature R)) :
    ∀ acc : List (String × List (Feature R)) × List (Feature R),
      (l.foldl (fun acc f =>
        match get_owner_key f.properties with
        | some k => (insertGroup k f acc.1, acc.2)
        | none => (acc.1, acc.2 ++ [f])) acc).2 =
      acc.2 ++ l.filter (fun f => (get_owner_key f.properties).isNone) := by
  induction l with
  | nil => intro acc; simp
  | cons f t ih =>
    intro acc
    rcases h : get_owner_key f.properties with _ | k
    · simp [List.foldl_cons, h, ih, List.filter_cons]
    · simp [List.foldl_cons, h, ih, List.filter_cons]

theorem insertGroup_keyed (k : String) (f : Feature R)
    (hk : get_owner_key f.properties = some k) :
    ∀ gs : List (String × List (Feature R)),
      (∀ p ∈ gs, ∀ x ∈ p.2, get_owner_key x.properties = some p.1) →
      ∀ p ∈ insertGroup k f gs, ∀ x ∈ p.2, get_owner_key x.properties = some p.1 := by
  intro gs
  induction gs with
  | nil =>
    intro _ p hp x hx
    simp only [insertGroup, List.mem_singleton] at hp
    subst hp
    simp only [List.mem_singleton] at hx
    subst hx
    exact hk
  | cons hd tl ih =>
    obtain ⟨k', fs⟩ := hd
    intro hinv p hp x hx
    have hins : insertGroup k f ((k', fs) :: tl) =
        if k' = k then (k', fs ++ [f]) :: tl
        else (k', fs) :: insertGroup k f tl := rfl
    by_cases hkk : k' = k
    · rw [hins, if_pos hkk] at hp
      rcases List.mem_cons.mp hp with hp | hp
      · subst hp
        rcases List.mem_append.mp hx with hx | hx
        · exact hinv (k', fs) (List.mem_cons_self _ _) x hx
        · rcases List.mem_singleton.mp hx with rfl
          rw [hkk]
          exact hk
      · exact hinv p (List.mem_cons_of_mem _ hp) x hx
    · rw [hins, if_neg hkk] at hp
      rcases List.mem_cons.mp hp with hp | hp
      · subst hp
        exact hinv (k', fs) (List.mem_cons_self _ _) x hx
      · exact ih (fun q hq => hinv q (List.mem_cons_of_mem _ hq)) p hp x hx

theorem groupByOwner_keyed (l : List (Feature R)) :
    ∀ acc : List (String × List (Feature R)) × List (Feature R),
      (∀ p ∈ acc.1, ∀ x ∈ p.2, get_owner_key x.properties = some p.1) →
      ∀ p ∈ (l.foldl (fun acc f =>
        match get_owner_key f.properties with
        | some k => (insertGroup k f acc.1, acc.2)
        | none => (acc.1, acc.2 ++ [f])) acc).1,
        ∀ x ∈ p.2, get_owner_key x.properties = some p.1 := by
  induction l with
  | nil => intro acc hinv; exact hinv
  | cons f t ih =>
    intro acc hinv
    rcases h : get_owner_key f.properties with _ | k
    · simp only [List.foldl_cons, h]
      exact ih _ hinv
    · simp only [List.foldl_cons, h]
      exact ih _ (insertGroup_keyed k f h acc.1 hinv)

/-- C6: the merge output is the concatenation of the per-owner-group
results, in owner-group first-occurrence order, followed by the
no-owner residual; the residual is exactly the input features whose
properties derive no OwnerKey, unchanged and in original input order;
and every feature placed in any owner group has that group's key (so a
feature with an absent or empty owner name, whose key is `None`, is
never placed in any group). -/
theorem merge_output_shape (e : GeoEngine R G) (features : List (Feature R)) :
    merge_parcels e features =
      ((groupByOwner features).1.map (fun kg => processGroup e kg.2)).flatten
        ++ (groupByOwner features).2 ∧
    (groupByOwner features).2 =
      features.filter (fun f => (get_owner_key f.properties).isNone) ∧
    (∀ p ∈ (groupByOwner features).1, ∀ x ∈ p.2,
      get_owner_key x.properties = some p.1) := by
  refine ⟨rfl, ?_, ?_⟩
  · exact groupByOwner_step_residual features ([], [])
  · exact groupByOwner_keyed features ([], []) (by intro p hp; cases hp)

def fo0 : Feature Nat := ⟨0, [("ownername", PVal.str "a" none)]⟩

def fo1 : Feature Nat := ⟨1, [("note", PVal.str "no owner" none)]⟩

def fo2 : Feature Nat := ⟨2, [("ownername", PVal.str " A " none)]⟩

/-- Witness for C6 on a concrete collection with a no-owner feature
between two same-owner features. -/
theorem merge_output_shape_witness :
    merge_parcels egBasic [fo0, fo1, fo2] =
      ((groupByOwner [fo0, fo1, fo2]).1.map
        (fun kg => processGroup egBasic kg.2)).flatten
        ++ (groupByOwner [fo0, fo1, fo2]).2 ∧
    (groupByOwner [fo0, fo1, fo2]).2 =
      [fo0, fo1, fo2].filter (fun f => (get_owner_key f.properties).isNone) :=
  ⟨(merge_output_shape egBasic [fo0, fo1, fo2]).1,
   (merge_output_shape egBasic [fo0, fo1, fo2]).2.1⟩

/- ------------------------------------------------------------------ -/
/- C8                                                                  -/
/- ------------------------------------------------------------------ -/

/-- Engine used for the mutation claims: simplification changes the
geometry, and the frame's geometry type is neither polygonal nor
linear. -/
def egMut : GeoEngine Nat Nat :=
  ⟨some, fun _ => true, some, fun _ _ => some true, fun _ _ => some false,
   fun l => l.head?, id, fun _ => false, fun _ _ g => g + 1, id,
   fun g => (g : ℚ), fun g => (g : ℚ), fun _ => "Point"⟩

/-- C8 counterexample: `simplify_geometries` assigns the simplified
column back into the caller's GeoDataFrame (`gdf['geometry'] = ...`),
so after the call the caller-visible input is no longer the original
collection — the operation does not leave its input unchanged. -/
theorem simplify_mutates_caller_input :
    (simplify_geometries egMut 1 true [5]).2 ≠ [5] := by decide

/-- C8 (amended): the owner-merge path builds fresh dicts and lists and
leaves its input unchanged, but `simplify_geometries` and
`add_area_length_fields` write their result into the caller's frame in
place: after either call the caller-visible input is the returned
(modified) collection itself. -/
theorem mutation_effects (e : GeoEngine R G) (tol : ℚ) (pt : Bool)
    (gdf : List G) (gdf2 : List (G × PropMap)) (fs : List (Feature R))
    (out : (List (G × PropMap)) × (List (G × PropMap)))
    (h : add_area_length_fields e gdf2 = some out) :
    (merge_features_effect e fs).2 = fs ∧
    (simplify_geometries e tol pt gdf).2 = (simplify_geometries e tol pt gdf).1 ∧
    out.2 = out.1 := by
  refine ⟨rfl, rfl, ?_⟩
  rcases gdf2 with _ | ⟨row0, t⟩
  · simp [add_area_length_fields] at h
  · simp only [add_area_length_fields] at h
    split at h
    · simp only [Option.some.injEq] at h; subst h; rfl
    · split at h
      · simp only [Option.some.injEq] at h; subst h; rfl
      · simp only [Option.some.injEq] at h; subst h; rfl

/-- Witness for C8 (amended) at concrete inputs. -/
theorem mutation_effects_witness :
    (merge_features_effect egMut [(⟨0, []⟩ : Feature Nat)]).2 = [⟨0, []⟩] ∧
    (simplify_geometries egMut 1 true [5]).2 = (simplify_geometries egMut 1 true [5]).1 ∧
    (([((7 : Nat), ([] : PropMap))], [((7 : Nat), ([] : PropMap))]).2 =
     ([((7 : Nat), ([] : PropMap))], [((7 : Nat), ([] : PropMap))]).1) :=
  mutation_effects egMut 1 true [5] [(7, [])] [⟨0, []⟩]
    ([(7, [])], [(7, [])]) rfl

/- ------------------------------------------------------------------ -/
/- Correctness of the connected-component search (C3, C4, C2)          -/
/- ------------------------------------------------------------------ -/

/-- One adjacency step in an abstract neighbour-list graph. -/
def stepRel (adj : Nat → List Nat) : Nat → Nat → Prop := fun a b => b ∈ adj a

/-- Reachability along adjacency edges. -/
def ReachAdj (adj : Nat → List Nat) : Nat → Nat → Prop :=
  Relation.ReflTransGen (stepRel adj)

theorem reachAdj_lt (adj : Nat → List Nat) (n : Nat)
    (hlt : ∀ i j, j ∈ adj i → j < n) (s x : Nat) (hs : s < n)
    (h : ReachAdj adj s x) : x < n := by
  induction h with
  | refl => exact hs
  | tail _ hbc _ => exact hlt _ _ hbc

theorem reachAdj_symm (adj : Nat → List Nat)
    (hsym : ∀ i j, j ∈ adj i → i ∈ adj j) (a b : Nat)
    (h : ReachAdj adj a b) : ReachAdj adj b a :=
  Relation.ReflTransGen.symmetric (fun _ _ hxy => hsym _ _ hxy) h

theorem reachAdj_trans (adj : Nat → List Nat) (a b c : Nat)
    (h1 : ReachAdj adj a b) (h2 : ReachAdj adj b c) : ReachAdj adj a c :=
  Relation.ReflTransGen.trans h1 h2

theorem reachAdj_closed_mono (adj : Nat → List Nat) (V : List Nat)
    (hVcl : ∀ u ∈ V, ∀ w ∈ adj u, w ∈ V) (a b : Nat)
    (h : ReachAdj adj a b) (ha : a ∈ V) : b ∈ V := by
  induction h with
  | refl => exact ha
  | tail _ hbc ih => exact hVcl _ ih _ hbc

theorem reachAdj_avoids_closed (adj : Nat → List Nat) (V : List Nat)
    (hsym : ∀ i j, j ∈ adj i → i ∈ adj j)
    (hVcl : ∀ u ∈ V, ∀ w ∈ adj u, w ∈ V) (s x : Nat) (hs : s ∉ V)
    (h : ReachAdj adj s x) : x ∉ V :=
  fun hx => hs (reachAdj_closed_mono adj V hVcl x s (reachAdj_symm adj hsym s x h) hx)

/-- The termination measure of the BFS `while` loop: one unit per queued
entry plus `n + 1` units per still-unvisited vertex. -/
def bfsMeasure (n : Nat) (q v : List Nat) : Nat :=
  q.length + (n - v.toFinset.card) * (n + 1)

theorem nodup_lt_length_le (n : Nat) (l : List Nat) (hnd : l.Nodup)
    (hl : ∀ x ∈ l, x < n) : l.length ≤ n := by
  have hsub : l.toFinset ⊆ Finset.range n := fun x hx =>
    Finset.mem_range.mpr (hl x (List.mem_toFinset.mp hx))
  calc l.length = l.toFinset.card := (List.toFinset_card_of_nodup hnd).symm
    _ ≤ (Finset.range n).card := Finset.card_le_card hsub
    _ = n := Finset.card_range n

/-- The full invariant of one run of the BFS `while` loop: starting from
a queue of vertices reachable from `start`, with an already-visited set
extending the closed set `V`, the loop visits exactly the vertices
reachable from the queue, and the group collects the non-`V` visits. -/
theorem bfsLoop_post (adj : Nat → List Nat) (n : Nat)
    (hlt : ∀ i j, j ∈ adj i → j < n) (hsym : ∀ i j, j ∈ adj i → i ∈ adj j)
    (hnd : ∀ i, (adj i).Nodup)
    (V : List Nat) (hVcl : ∀ u ∈ V, ∀ w ∈ adj u, w ∈ V)
    (start : Nat) (hsV : start ∉ V) (hsn : start < n) :
    ∀ (fuel : Nat) (q v g : List Nat),
      bfsMeasure n q v ≤ fuel →
      (∀ x ∈ q, ReachAdj adj start x) →
      (∀ x ∈ v, x < n) →
      (∀ u ∈ v, u ∉ V → ∀ w ∈ adj u, w ∈ v ∨ w ∈ q) →
      (∀ x ∈ V, x ∈ v) →
      (∀ x, x ∈ g ↔ (x ∈ v ∧ x ∉ V)) →
      g.Nodup →
      (start ∈ v ∨ start ∈ q) →
      (∀ x ∈ v, x ∈ (bfsLoop adj fuel q v g).1) ∧
      (∀ x ∈ (bfsLoop adj fuel q v g).1, x ∈ v ∨ ReachAdj adj start x) ∧
      (∀ x ∈ (bfsLoop adj fuel q v g).1, x < n) ∧
      (∀ u ∈ (bfsLoop adj fuel q v g).1, u ∉ V →
        ∀ w ∈ adj u, w ∈ (bfsLoop adj fuel q v g).1) ∧
      (∀ x, x ∈ (bfsLoop adj fuel q v g).2 ↔
        (x ∈ (bfsLoop adj fuel q v g).1 ∧ x ∉ V)) ∧
      (bfsLoop adj fuel q v g).2.Nodup ∧
      start ∈ (bfsLoop adj fuel q v g).1 := by
  intro fuel
  induction fuel with
  | zero =>
    intro q v g hfuel hq1 hv3 hcl hVv hg hgnd hst
    have hq : q = [] := by
      have hq0 : q.length = 0 := by unfold bfsMeasure at hfuel; omega
      exact List.length_eq_zero.mp hq0
    subst hq
    simp only [bfsLoop]
    refine ⟨fun x hx => hx, fun x hx => Or.inl hx, hv3, ?_, hg, hgnd,
      hst.resolve_right (List.not_mem_nil start)⟩
    intro u hu huV w hw
    exact (hcl u hu huV w hw).resolve_right (List.not_mem_nil w)
  | succ fuel ih =>
    intro q v g hfuel hq1 hv3 hcl hVv hg hgnd hst
    cases q with
    | nil =>
      simp only [bfsLoop]
      refine ⟨fun x hx => hx, fun x hx => Or.inl hx, hv3, ?_, hg, hgnd,
        hst.resolve_right (List.not_mem_nil start)⟩
      intro u hu huV w hw
      exact (hcl u hu huV w hw).resolve_right (List.not_mem_nil w)
    | cons node rest =>
      have hnodeR : ReachAdj adj start node := hq1 node (List.mem_cons_self _ _)
      have hnoden : node < n := reachAdj_lt adj n hlt start node hsn hnodeR
      by_cases hmem : node ∈ v
      · -- the popped vertex was already visited: skip it
        have heq : bfsLoop adj (fuel + 1) (node :: rest) v g =
            bfsLoop adj fuel rest v g := by
          simp [bfsLoop, hmem]
        rw [heq]
        refine ih rest v g ?_ (fun x hx => hq1 x (List.mem_cons_of_mem _ hx))
          hv3 ?_ hVv hg hgnd ?_
        · unfold bfsMeasure at hfuel ⊢
          simp only [List.length_cons] at hfuel
          omega
        · intro u hu huV w hw
          rcases hcl u hu huV w hw with hw' | hw'
          · exact Or.inl hw'
          · rcases List.mem_cons.mp hw' with rfl | hw''
            · exact Or.inl hmem
            · exact Or.inr hw''
        · rcases hst with hst | hst
          · exact Or.inl hst
          · rcases List.mem_cons.mp hst with rfl | hst'
            · exact Or.inl hmem
            · exact Or.inr hst'
      · -- a new vertex: visit it and enqueue its unvisited neighbours
        have hnodeV : node ∉ V :=
          reachAdj_avoids_closed adj V hsym hVcl start node hsV hnodeR
        have heq : bfsLoop adj (fuel + 1) (node :: rest) v g =
            bfsLoop adj fuel
              (rest ++ (adj node).filter (fun m => ! decide (m ∈ node :: v)))
              (node :: v) (g ++ [node]) := by
          simp [bfsLoop, hmem]
        rw [heq]
        have hcard : (node :: v).toFinset.card = v.toFinset.card + 1 := by
          rw [List.toFinset_cons,
            Finset.card_insert_of_not_mem (fun hc => hmem (List.mem_toFinset.mp hc))]
        have hcn : v.toFinset.card + 1 ≤ n := by
          have hsub : (node :: v).toFinset ⊆ Finset.range n := by
            intro x hx
            rcases List.mem_cons.mp (List.mem_toFinset.mp hx) with rfl | hx'
            · exact Finset.mem_range.mpr hnoden
            · exact Finset.mem_range.mpr (hv3 x hx')
          have hle := Finset.card_le_card hsub
          rw [hcard, Finset.card_range] at hle
          exact hle
        have hfuel' : bfsMeasure n
            (rest ++ (adj node).filter (fun m => ! decide (m ∈ node :: v)))
            (node :: v) ≤ fuel := by
          have hLle : ((adj node).filter (fun m => ! decide (m ∈ node :: v))).length
              ≤ (adj node).length := List.length_filter_le _ _
          have hadjle : (adj node).length ≤ n :=
            nodup_lt_length_le n (adj node) (hnd node) (fun x hx => hlt node x hx)
          unfold bfsMeasure at hfuel ⊢
          rw [List.length_append, hcard]
          simp only [List.length_cons] at hfuel
          have hsplit : (n - v.toFinset.card) * (n + 1) =
              (n - (v.toFinset.card + 1)) * (n + 1) + (n + 1) := by
            have hc : n - v.toFinset.card = (n - (v.toFinset.card + 1)) + 1 := by omega
            rw [hc, add_mul, one_mul]
          rw [hsplit] at hfuel
          omega
        -- queued vertices are reachable from start
        have hq1' : ∀ x ∈ rest ++ (adj node).filter (fun m => ! decide (m ∈ node :: v)),
            ReachAdj adj start x := by
          intro x hx
          rcases List.mem_append.mp hx with hx' | hx'
          · exact hq1 x (List.mem_cons_of_mem _ hx')
          · exact Relation.ReflTransGen.tail hnodeR (List.mem_filter.mp hx').1
        -- visited vertices are in range
        have hv3' : ∀ x ∈ node :: v, x < n := by
          intro x hx
          rcases List.mem_cons.mp hx with rfl | hx'
          · exact hnoden
          · exact hv3 x hx'
        -- the frontier invariant
        have hcl' : ∀ u ∈ node :: v, u ∉ V → ∀ w ∈ adj u,
            w ∈ node :: v ∨ w ∈ rest ++ (adj node).filter (fun m => ! decide (m ∈ node :: v)) := by
          intro u hu huV w hw
          rcases List.mem_cons.mp hu with rfl | hu'
          · by_cases hwv : w ∈ u :: v
            · exact Or.inl hwv
            · refine Or.inr (List.mem_append_right _ (List.mem_filter.mpr ⟨hw, ?_⟩))
              simp [hwv]
          · rcases hcl u hu' huV w hw with hw' | hw'
            · exact Or.inl (List.mem_cons_of_mem _ hw')
            · rcases List.mem_cons.mp hw' with rfl | hw''
              · exact Or.inl (List.mem_cons_self _ _)
              · exact Or.inr (List.mem_append_left _ hw'')
        -- V stays inside visited
        have hVv' : ∀ x ∈ V, x ∈ node :: v :=
          fun x hx => List.mem_cons_of_mem _ (hVv x hx)
        -- the group collects exactly the non-V visited vertices
        have hg' : ∀ x, x ∈ g ++ [node] ↔ (x ∈ node :: v ∧ x ∉ V) := by
          intro x
          constructor
          · intro hx
            rcases List.mem_append.mp hx with hx' | hx'
            · obtain ⟨hxv, hxV⟩ := (hg x).mp hx'
              exact ⟨List.mem_cons_of_mem _ hxv, hxV⟩
            · rcases List.mem_singleton.mp hx' with rfl
              exact ⟨List.mem_cons_self _ _, hnodeV⟩
          · rintro ⟨hxv, hxV⟩
            rcases List.mem_cons.mp hxv with rfl | hx'
            · exact List.mem_append_right _ (List.mem_singleton.mpr rfl)
            · exact List.mem_append_left _ ((hg x).mpr ⟨hx', hxV⟩)
        -- the group stays duplicate-free
        have hgnd' : (g ++ [node]).Nodup := by
          refine List.Nodup.append hgnd (List.nodup_singleton node) ?_
          intro a ha hb
          rcases List.mem_singleton.mp hb with rfl
          exact hmem ((hg a).mp ha).1
        -- start is visited or queued
        have hst' : start ∈ node :: v ∨
            start ∈ rest ++ (adj node).filter (fun m => ! decide (m ∈ node :: v)) := by
          rcases hst with hst | hst
          · exact Or.inl (List.mem_cons_of_mem _ hst)
          · rcases List.mem_cons.mp hst with rfl | hst'
            · exact Or.inl (List.mem_cons_self _ _)
            · exact Or.inr (List.mem_append_left _ hst')
        obtain ⟨Q1, Q2, Q3, Q4, Q5, Q6, Q7⟩ :=
          ih (rest ++ (adj node).filter (fun m => ! decide (m ∈ node :: v)))
            (node :: v) (g ++ [node]) hfuel' hq1' hv3' hcl' hVv' hg' hgnd' hst'
        refine ⟨fun x hx => Q1 x (List.mem_cons_of_mem _ hx),
          fun x hx => ?_, Q3, Q4, Q5, Q6, Q7⟩
        rcases Q2 x hx with hx' | hx'
        · rcases List.mem_cons.mp hx' with rfl | hx''
          · exact Or.inr hnodeR
          · exact Or.inl hx''
        · exact Or.inr hx'

/-- One component run of the BFS: from an unvisited `start` and an
adjacency-closed visited set, the produced group is exactly the
reachability class of `start`, and the new visited set is the old one
plus that class. -/
theorem bfsLoop_run (adj : Nat → List Nat) (n : Nat)
    (hlt : ∀ i j, j ∈ adj i → j < n) (hsym : ∀ i j, j ∈ adj i → i ∈ adj j)
    (hnd : ∀ i, (adj i).Nodup)
    (v : List Nat) (hvcl : ∀ u ∈ v, ∀ w ∈ adj u, w ∈ v)
    (hv3 : ∀ x ∈ v, x < n)
    (start : Nat) (hsv : start ∉ v) (hsn : start < n)
    (fuel : Nat) (hfuel : bfsMeasure n [start] v ≤ fuel) :
    (∀ x, x ∈ (bfsLoop adj fuel [start] v []).2 ↔ ReachAdj adj start x) ∧
    (∀ x, x ∈ (bfsLoop adj fuel [start] v []).1 ↔
      (x ∈ v ∨ ReachAdj adj start x)) ∧
    (bfsLoop adj fuel [start] v []).2.Nodup ∧
    (∀ x ∈ (bfsLoop adj fuel [start] v []).1, x < n) ∧
    (∀ u ∈ (bfsLoop adj fuel [start] v []).1, ∀ w ∈ adj u,
      w ∈ (bfsLoop adj fuel [start] v []).1) := by
  obtain ⟨Q1, Q2, Q3, Q4, Q5, Q6, Q7⟩ :=
    bfsLoop_post adj n hlt hsym hnd v hvcl start hsv hsn fuel [start] v []
      hfuel
      (fun x hx => by rcases List.mem_singleton.mp hx with rfl; exact .refl)
      hv3
      (fun u hu huV _ _ => absurd hu huV)
      (fun x hx => hx)
      (fun x => by simp)
      List.nodup_nil
      (Or.inr (List.mem_singleton.mpr rfl))
  have hclass : ∀ x, ReachAdj adj start x → x ∈ (bfsLoop adj fuel [start] v []).1 := by
    intro x hx
    induction hx with
    | refl => exact Q7
    | tail hab hbc ihx =>
      exact Q4 _ ihx (reachAdj_avoids_closed adj v hsym hvcl start _ hsv hab) _ hbc
  refine ⟨fun x => ⟨?_, ?_⟩, fun x => ⟨Q2 x, ?_⟩, Q6, Q3, ?_⟩
  · intro hx
    obtain ⟨hx1, hx2⟩ := (Q5 x).mp hx
    exact (Q2 x hx1).resolve_left hx2
  · intro hx
    exact (Q5 x).mpr ⟨hclass x hx,
      reachAdj_avoids_closed adj v hsym hvcl start x hsv hx⟩
  · intro hx
    rcases hx with hx | hx
    · exact Q1 x hx
    · exact hclass x hx
  · intro u hu w hw
    obtain hu' := Q2 u hu
    by_cases huv : u ∈ v
    · exact Q1 w (hvcl u huv w hw)
    · exact Q4 u hu huv w hw

/-- The outer loop of the connected-component search: starting from a
closed visited set that is exactly the union of the accumulated groups,
it extends the group list with the reachability class of each
yet-unvisited start. -/
theorem bfsAll_post (adj : Nat → List Nat) (n : Nat)
    (hlt : ∀ i j, j ∈ adj i → j < n) (hsym : ∀ i j, j ∈ adj i → i ∈ adj j)
    (hnd : ∀ i, (adj i).Nodup)
    (fuel : Nat) (hfuel : 1 + n * (n + 1) ≤ fuel) :
    ∀ (starts visited : List Nat) (groups : List (List Nat)),
      (∀ s ∈ starts, s < n) →
      (∀ x ∈ visited, x < n) →
      (∀ u ∈ visited, ∀ w ∈ adj u, w ∈ visited) →
      (∀ x, x ∈ visited ↔ ∃ gl ∈ groups, x ∈ gl) →
      (∀ gl ∈ groups, ∃ s, s < n ∧ ∀ x, (x ∈ gl ↔ ReachAdj adj s x)) →
      (∀ gl ∈ groups, gl.Nodup) →
      List.Pairwise (fun a b => ∀ x, x ∈ a → x ∉ b) groups →
      (∀ x, x ∈ (bfsAll adj fuel starts visited groups).1 ↔
        ∃ gl ∈ (bfsAll adj fuel starts visited groups).2, x ∈ gl) ∧
      (∀ gl ∈ (bfsAll adj fuel starts visited groups).2,
        ∃ s, s < n ∧ ∀ x, (x ∈ gl ↔ ReachAdj adj s x)) ∧
      (∀ gl ∈ (bfsAll adj fuel starts visited groups).2, gl.Nodup) ∧
      List.Pairwise (fun a b => ∀ x, x ∈ a → x ∉ b)
        (bfsAll adj fuel starts visited groups).2 ∧
      (∀ s ∈ starts, s ∈ (bfsAll adj fuel starts visited groups).1) ∧
      (∀ x ∈ visited, x ∈ (bfsAll adj fuel starts visited groups).1) ∧
      (∀ gl ∈ groups, gl ∈ (bfsAll adj fuel starts visited groups).2) := by
  intro starts
  induction starts with
  | nil =>
    intro visited groups _ hvlt hvcl hviff hseeds hnds hpw
    simp only [bfsAll]
    exact ⟨hviff, hseeds, hnds, hpw, fun s hs => absurd hs (List.not_mem_nil s),
      fun x hx => hx, fun gl hgl => hgl⟩
  | cons start rest ih =>
    intro visited groups hslt hvlt hvcl hviff hseeds hnds hpw
    have hsn : start < n := hslt start (List.mem_cons_self _ _)
    by_cases hmem : start ∈ visited
    · have heq : bfsAll adj fuel (start :: rest) visited groups =
          bfsAll adj fuel rest visited groups := by
        simp [bfsAll, hmem]
      rw [heq]
      obtain ⟨K1, K2, K3, K4, K5, K6, K7⟩ :=
        ih visited groups (fun s hs => hslt s (List.mem_cons_of_mem _ hs))
          hvlt hvcl hviff hseeds hnds hpw
      refine ⟨K1, K2, K3, K4, ?_, K6, K7⟩
      intro s hs
      rcases List.mem_cons.mp hs with rfl | hs'
      · exact K6 s hmem
      · exact K5 s hs'
    · have heq : bfsAll adj fuel (start :: rest) visited groups =
          bfsAll adj fuel rest (bfsLoop adj fuel [start] visited []).1
            (groups ++ [(bfsLoop adj fuel [start] visited []).2]) := by
        simp [bfsAll, hmem]
      rw [heq]
      have hfuelrun : bfsMeasure n [start] visited ≤ fuel := by
        unfold bfsMeasure
        have hmul : (n - visited.toFinset.card) * (n + 1) ≤ n * (n + 1) :=
          Nat.mul_le_mul_right _ (Nat.sub_le _ _)
        simp only [List.length_singleton]
        omega
      obtain ⟨W1, W2, W3, W4, W5⟩ :=
        bfsLoop_run adj n hlt hsym hnd visited hvcl hvlt start hmem hsn fuel hfuelrun
      have hstartgrp : start ∈ (bfsLoop adj fuel [start] visited []).2 :=
        (W1 start).mpr .refl
      -- the new group is disjoint from everything already visited
      have hnewdisj : ∀ x ∈ (bfsLoop adj fuel [start] visited []).2, x ∉ visited :=
        fun x hx => reachAdj_avoids_closed adj visited hsym hvcl start x hmem
          ((W1 x).mp hx)
      obtain ⟨K1, K2, K3, K4, K5, K6, K7⟩ :=
        ih (bfsLoop adj fuel [start] visited []).1
          (groups ++ [(bfsLoop adj fuel [start] visited []).2])
          (fun s hs => hslt s (List.mem_cons_of_mem _ hs))
          W4 W5
          (fun x => by
            rw [W2 x]
            constructor
            · intro hx
              rcases hx with hx | hx
              · obtain ⟨gl, hgl, hxgl⟩ := (hviff x).mp hx
                exact ⟨gl, List.mem_append_left _ hgl, hxgl⟩
              · exact ⟨(bfsLoop adj fuel [start] visited []).2,
                  List.mem_append_right _ (List.mem_singleton.mpr rfl),
                  (W1 x).mpr hx⟩
            · rintro ⟨gl, hgl, hxgl⟩
              rcases List.mem_append.mp hgl with hgl' | hgl'
              · exact Or.inl ((hviff x).mpr ⟨gl, hgl', hxgl⟩)
              · rcases List.mem_singleton.mp hgl' with rfl
                exact Or.inr ((W1 x).mp hxgl))
          (fun gl hgl => by
            rcases List.mem_append.mp hgl with hgl' | hgl'
            · exact hseeds gl hgl'
            · rcases List.mem_singleton.mp hgl' with rfl
              exact ⟨start, hsn, W1⟩)
          (fun gl hgl => by
            rcases List.mem_append.mp hgl with hgl' | hgl'
            · exact hnds gl hgl'
            · rcases List.mem_singleton.mp hgl' with rfl
              exact W3)
          (by
            rw [List.pairwise_append]
            refine ⟨hpw, List.pairwise_singleton _ _, ?_⟩
            intro a ha b hb
            rcases List.mem_singleton.mp hb with rfl
            intro x hxa hxb
            exact hnewdisj x hxb ((hviff x).mpr ⟨a, ha, hxa⟩))
      refine ⟨K1, K2, K3, K4, ?_, ?_, ?_⟩
      · intro s hs
        rcases List.mem_cons.mp hs with rfl | hs'
        · exact K6 s ((W2 s).mpr (Or.inr .refl))
        · exact K5 s hs'
      · intro x hx
        exact K6 x ((W2 x).mpr (Or.inl hx))
      · intro gl hgl
        exact K7 gl (List.mem_append_left _ hgl)

theorem edgeB_lt (e : GeoEngine R G) (gs : List G) (i j : Nat)
    (h : edgeB e gs i j = true) : i < gs.length ∧ j < gs.length := by
  constructor
  · by_contra hni
    have hgi : gs.get? i = none := List.get?_eq_none.mpr (Nat.le_of_not_lt hni)
    unfold edgeB at h
    rw [hgi] at h
    simp at h
  · by_contra hnj
    have hgj : gs.get? j = none := List.get?_eq_none.mpr (Nat.le_of_not_lt hnj)
    unfold edgeB at h
    rcases hgi : gs.get? i with _ | g
    · rw [hgi] at h
      simp at h
    · rw [hgi, hgj] at h
      simp at h

theorem adjFn_mem (e : GeoEngine R G) (gs : List G) (i j : Nat) :
    j ∈ adjFn e gs i ↔ (j < gs.length ∧
      ((i < j ∧ edgeB e gs i j = true) ∨ (j < i ∧ edgeB e gs j i = true))) := by
  simp [adjFn, List.mem_filter, List.mem_range]

theorem adjFn_lt (e : GeoEngine R G) (gs : List G) (i j : Nat)
    (h : j ∈ adjFn e gs i) : j < gs.length :=
  ((adjFn_mem e gs i j).mp h).1

theorem adjFn_symm (e : GeoEngine R G) (gs : List G) (i j : Nat)
    (h : j ∈ adjFn e gs i) : i ∈ adjFn e gs j := by
  obtain ⟨hj, hd⟩ := (adjFn_mem e gs i j).mp h
  rcases hd with ⟨hij, hE⟩ | ⟨hji, hE⟩
  · exact (adjFn_mem e gs j i).mpr ⟨(edgeB_lt e gs i j hE).1, Or.inr ⟨hij, hE⟩⟩
  · exact (adjFn_mem e gs j i).mpr ⟨(edgeB_lt e gs j i hE).2, Or.inl ⟨hji, hE⟩⟩

theorem adjFn_nodup (e : GeoEngine R G) (gs : List G) (i : Nat) :
    (adjFn e gs i).Nodup :=
  List.Nodup.filter _ (List.nodup_range _)

/-- Two positions of the geometry list are connected when a chain of
pairwise touch/intersect edges joins them. -/
def Reach (e : GeoEngine R G) (gs : List G) : Nat → Nat → Prop :=
  ReachAdj (adjFn e gs)

theorem reachAdj_no_out (adj : Nat → List Nat) (s : Nat) (hs : adj s = [])
    (x : Nat) : ReachAdj adj s x ↔ x = s := by
  constructor
  · intro h
    induction h with
    | refl => rfl
    | tail hab hbc ih =>
      subst ih
      rw [stepRel, hs] at hbc
      cases hbc
  · rintro rfl
    exact .refl

/-- The full specification of `find_adjacent_groups`: its result is the
partition of the position set `{0..n-1}` into the connected components
of the touch/intersect reachability relation, one group per component.
This characterization mentions only the edge relation, so the partition
is independent of any traversal or set-enumeration order. -/
theorem find_adjacent_groups_spec (e : GeoEngine R G) (gs : List G) :
    (∀ i, i < gs.length → ∃ gl ∈ find_adjacent_groups e gs, i ∈ gl) ∧
    (∀ gl ∈ find_adjacent_groups e gs,
      gl ≠ [] ∧ gl.Nodup ∧ ∀ i ∈ gl, i < gs.length) ∧
    (∀ gl ∈ find_adjacent_groups e gs, ∀ i ∈ gl, ∀ j,
      (j ∈ gl ↔ Reach e gs i j)) ∧
    List.Pairwise (fun a b => ∀ x, x ∈ a → x ∉ b) (find_adjacent_groups e gs) ∧
    (find_adjacent_groups e gs).length =
      Set.ncard {C : Set Nat | ∃ s, s < gs.length ∧ C = {x | Reach e gs s x}} := by
  by_cases hn : gs.length ≤ 1
  · -- the n <= 1 short-circuit branch of find_adjacent_groups
    interval_cases hl : gs.length
    · have hfind : find_adjacent_groups e gs = [] := by
        simp [find_adjacent_groups, hl]
      rw [hfind]
      refine ⟨by omega, ?_, ?_, List.Pairwise.nil, ?_⟩
      · intro gl hgl; cases hgl
      · intro gl hgl; cases hgl
      · have hset : {C : Set Nat | ∃ s, s < 0 ∧ C = {x | Reach e gs s x}} = ∅ := by
          ext C
          simp
        rw [hset, Set.ncard_empty]
        rfl
    · have hfind : find_adjacent_groups e gs = [[0]] := by
        simp [find_adjacent_groups, hl]
        rfl
      have hadj0 : adjFn e gs 0 = [] := by
        apply List.eq_nil_iff_forall_not_mem.mpr
        intro j hj
        obtain ⟨hjlt, hd⟩ := (adjFn_mem e gs 0 j).mp hj
        rw [hl] at hjlt
        rcases hd with ⟨h0j, _⟩ | ⟨hj0, _⟩
        · omega
        · omega
      have hreach0 : ∀ x, Reach e gs 0 x ↔ x = 0 :=
        reachAdj_no_out (adjFn e gs) 0 hadj0
      rw [hfind]
      refine ⟨?_, ?_, ?_, ?_, ?_⟩
      · intro i hi
        interval_cases i
        exact ⟨[0], List.mem_singleton.mpr rfl, List.mem_singleton.mpr rfl⟩
      · intro gl hgl
        rcases List.mem_singleton.mp hgl with rfl
        refine ⟨by simp, List.nodup_singleton _, ?_⟩
        intro i hi
        rcases List.mem_singleton.mp hi with rfl
        omega
      · intro gl hgl i hi j
        rcases List.mem_singleton.mp hgl with rfl
        rcases List.mem_singleton.mp hi with rfl
        rw [List.mem_singleton, hreach0 j]
      · exact List.pairwise_singleton _ _
      · have hset : {C : Set Nat | ∃ s, s < 1 ∧ C = {x | Reach e gs s x}}
            = {({x | Reach e gs 0 x} : Set Nat)} := by
          ext C
          simp only [Set.mem_setOf_eq, Set.mem_singleton_iff]
          constructor
          · rintro ⟨s, hs, rfl⟩
            interval_cases s
            rfl
          · rintro rfl
            exact ⟨0, by omega, rfl⟩
        rw [hset, Set.ncard_singleton]
        rfl
  · -- the general branch: the BFS over all starts
    push_neg at hn
    have hfind : find_adjacent_groups e gs =
        (bfsAll (adjFn e gs) ((gs.length + 1) * (gs.length + 1))
          (List.range gs.length) [] []).2 := by
      simp [find_adjacent_groups, Nat.not_le.mpr hn]
    have hfuel : 1 + gs.length * (gs.length + 1) ≤
        (gs.length + 1) * (gs.length + 1) := by
      have hmul : (gs.length + 1) * (gs.length + 1)
          = gs.length * (gs.length + 1) + (gs.length + 1) := by ring
      omega
    obtain ⟨K1, K2, K3, K4, K5, K6, K7⟩ :=
      bfsAll_post (adjFn e gs) gs.length (adjFn_lt e gs) (adjFn_symm e gs)
        (adjFn_nodup e gs) ((gs.length + 1) * (gs.length + 1)) hfuel
        (List.range gs.length) [] []
        (fun s hs => List.mem_range.mp hs)
        (fun x hx => absurd hx (List.not_mem_nil x))
        (fun u hu => absurd hu (List.not_mem_nil u))
        (fun x => by simp)
        (fun gl hgl => absurd hgl (List.not_mem_nil gl))
        (fun gl hgl => absurd hgl (List.not_mem_nil gl))
        List.Pairwise.nil
    rw [hfind]
    have hcover : ∀ i, i < gs.length →
        ∃ gl ∈ (bfsAll (adjFn e gs) ((gs.length + 1) * (gs.length + 1))
          (List.range gs.length) [] []).2, i ∈ gl :=
      fun i hi => K1 i |>.mp (K5 i (List.mem_range.mpr hi))
    have hmemiff : ∀ gl ∈ (bfsAll (adjFn e gs) ((gs.length + 1) * (gs.length + 1))
        (List.range gs.length) [] []).2, ∀ i ∈ gl, ∀ j, (j ∈ gl ↔ Reach e gs i j) := by
      intro gl hgl i hi j
      obtain ⟨s, hsn, hiff⟩ := K2 gl hgl
      have hsi : Reach e gs s i := (hiff i).mp hi
      constructor
      · intro hj
        exact reachAdj_trans (adjFn e gs) i s j
          (reachAdj_symm (adjFn e gs) (adjFn_symm e gs) s i hsi) ((hiff j).mp hj)
      · intro hj
        exact (hiff j).mpr (reachAdj_trans (adjFn e gs) s i j hsi hj)
    refine ⟨hcover, ?_, hmemiff, K4, ?_⟩
    · intro gl hgl
      obtain ⟨s, hsn, hiff⟩ := K2 gl hgl
      have hsgl : s ∈ gl := (hiff s).mpr .refl
      have hne : gl ≠ [] := by
        intro hnil
        rw [hnil] at hsgl
        cases hsgl
      refine ⟨hne, K3 gl hgl, ?_⟩
      intro i hi
      exact reachAdj_lt (adjFn e gs) gs.length (adjFn_lt e gs) s i hsn ((hiff i).mp hi)
    · -- the group count equals the number of components
      classical
      set L := (bfsAll (adjFn e gs) ((gs.length + 1) * (gs.length + 1))
        (List.range gs.length) [] []).2 with hL
      have hsetEq : {C : Set Nat | ∃ s, s < gs.length ∧ C = {x | Reach e gs s x}}
          = {C : Set Nat | C ∈ L.map (fun gl => {x | x ∈ gl})} := by
        ext C
        simp only [Set.mem_setOf_eq, List.mem_map]
        constructor
        · rintro ⟨s, hs, rfl⟩
          obtain ⟨gl, hgl, hsgl⟩ := hcover s hs
          refine ⟨gl, hgl, ?_⟩
          ext x
          simp only [Set.mem_setOf_eq]
          exact hmemiff gl hgl s hsgl x
        · rintro ⟨gl, hgl, rfl⟩
          obtain ⟨s, hsn, hiff⟩ := K2 gl hgl
          refine ⟨s, hsn, ?_⟩
          ext x
          simp only [Set.mem_setOf_eq]
          exact hiff x
      have hpwNe : L.Pairwise (fun a b => ({x | x ∈ a} : Set Nat) ≠ {x | x ∈ b}) := by
        refine List.Pairwise.imp_of_mem ?_ K4
        intro a b ha _ hdisj heq
        obtain ⟨s, _, hiff⟩ := K2 a ha
        have hsa : s ∈ a := (hiff s).mpr .refl
        have hsb : s ∈ ({x | x ∈ b} : Set Nat) := heq ▸ hsa
        exact hdisj s hsa hsb
      have hnodupM : (L.map (fun gl => ({x | x ∈ gl} : Set Nat))).Nodup :=
        List.pairwise_map.mpr hpwNe
      rw [hsetEq]
      have hcoe : {C : Set Nat | C ∈ L.map (fun gl => {x | x ∈ gl})} =
          ↑(L.map (fun gl => ({x | x ∈ gl} : Set Nat))).toFinset := by
        ext C
        simp [List.mem_toFinset]
      rw [hcoe, Set.ncard_coe_Finset, List.toFinset_card_of_nodup hnodupM,
        List.length_map]

/-- C3: the grouping produced by `find_adjacent_groups` is exactly the
partition of the position set `{0..n-1}` into maximal connected
components of the edge relation: two positions share an output group
iff a chain of edges joins them, every position lies in a group, the
groups are pairwise disjoint, and the group count equals the number of
connected components.  Because this characterization mentions only the
reachability relation, the partition does not depend on the traversal
or set-enumeration order. -/
theorem connected_component_partition (e : GeoEngine R G) (gs : List G) :
    (∀ i, i < gs.length → ∃ gl ∈ find_adjacent_groups e gs, i ∈ gl) ∧
    (∀ gl ∈ find_adjacent_groups e gs, ∀ i ∈ gl, ∀ j,
      (j ∈ gl ↔ Reach e gs i j)) ∧
    (∀ i j, i < gs.length → j < gs.length →
      ((∃ gl ∈ find_adjacent_groups e gs, i ∈ gl ∧ j ∈ gl) ↔ Reach e gs i j)) ∧
    List.Pairwise (fun a b => ∀ x, x ∈ a → x ∉ b) (find_adjacent_groups e gs) ∧
    (find_adjacent_groups e gs).length =
      Set.ncard {C : Set Nat | ∃ s, s < gs.length ∧ C = {x | Reach e gs s x}} := by
  obtain ⟨S1, S2, S3, S4, S5⟩ := find_adjacent_groups_spec e gs
  refine ⟨S1, S3, ?_, S4, S5⟩
  intro i j hi hj
  constructor
  · rintro ⟨gl, hgl, higl, hjgl⟩
    exact (S3 gl hgl i higl j).mp hjgl
  · intro hr
    obtain ⟨gl, hgl, higl⟩ := S1 i hi
    exact ⟨gl, hgl, higl, (S3 gl hgl i higl j).mpr hr⟩

/-- Witness for C3: two everywhere-touching geometries end up in one
common group. -/
theorem connected_component_partition_witness :
    ∃ gl ∈ find_adjacent_groups egBasic [0, 1], 0 ∈ gl ∧ 1 ∈ gl :=
  ((connected_component_partition egBasic [0, 1]).2.2.1 0 1 (by decide)
    (by decide)).mpr (Relation.ReflTransGen.single
      (show 1 ∈ adjFn egBasic [0, 1] 0 by decide))

theorem pairEdge_eq_true (e : GeoEngine R G) (g h : G) :
    pairEdge e g h = true ↔ pyTouchOrIntersect e g h = some true := by
  unfold pairEdge
  rcases hp : pyTouchOrIntersect e g h with _ | b
  · simp
  · rcases b <;> simp

theorem edgeB_get (e : GeoEngine R G) (gs : List G) (i j : Nat)
    (hi : i < gs.length) (hj : j < gs.length) :
    edgeB e gs i j = pairEdge e (gs.get ⟨i, hi⟩) (gs.get ⟨j, hj⟩) := by
  unfold edgeB
  rw [List.get?_eq_get hi, List.get?_eq_get hj]

/-- C4: for positions `i < j`, the adjacency graph has the undirected
edge `(i, j)` iff the Python expression `touches(i,j) or
intersects(i,j)` evaluates to `True`; the adjacency sets are symmetric;
and when the pairwise predicate expression raises (evaluates to `none`
in the embedding) there is no edge — the graph construction is a total
function, so no predicate exception ever propagates to its caller. -/
theorem adjacency_edge_iff (e : GeoEngine R G) (gs : List G) :
    (∀ i j (hi : i < gs.length) (hj : j < gs.length), i < j →
      (j ∈ adjFn e gs i ↔
        pyTouchOrIntersect e (gs.get ⟨i, hi⟩) (gs.get ⟨j, hj⟩) = some true)) ∧
    (∀ i j, j ∈ adjFn e gs i ↔ i ∈ adjFn e gs j) ∧
    (∀ i j (hi : i < gs.length) (hj : j < gs.length), i < j →
      pyTouchOrIntersect e (gs.get ⟨i, hi⟩) (gs.get ⟨j, hj⟩) = none →
      j ∉ adjFn e gs i) := by
  have hmain : ∀ i j (hi : i < gs.length) (hj : j < gs.length), i < j →
      (j ∈ adjFn e gs i ↔
        pyTouchOrIntersect e (gs.get ⟨i, hi⟩) (gs.get ⟨j, hj⟩) = some true) := by
    intro i j hi hj hij
    rw [adjFn_mem]
    constructor
    · rintro ⟨_, ⟨_, hE⟩ | ⟨hji, _⟩⟩
      · rw [edgeB_get e gs i j hi hj] at hE
        exact (pairEdge_eq_true e _ _).mp hE
      · omega
    · intro hT
      refine ⟨hj, Or.inl ⟨hij, ?_⟩⟩
      rw [edgeB_get e gs i j hi hj]
      exact (pairEdge_eq_true e _ _).mpr hT
  refine ⟨hmain, fun i j => ⟨adjFn_symm e gs i j, adjFn_symm e gs j i⟩, ?_⟩
  intro i j hi hj hij hnone hmem
  have := (hmain i j hi hj hij).mp hmem
  rw [hnone] at this
  cases this

/-- An engine whose `touches` always raises; `intersects` would return
`True` but is never consulted because the `or` expression raises first. -/
def egTouchRaise : GeoEngine Nat Nat :=
  ⟨some, fun _ => true, some, fun _ _ => none, fun _ _ => some true,
   fun l => l.head?, id, fun _ => false, fun _ _ g => g, id,
   fun g => (g : ℚ), fun g => (g : ℚ), fun _ => "Polygon"⟩

/-- Witness for C4: a raising pairwise predicate yields no edge and no
exception. -/
theorem adjacency_edge_iff_witness : 1 ∉ adjFn egTouchRaise [3, 4] 0 :=
  (adjacency_edge_iff egTouchRaise [3, 4]).2.2 0 1 (by decide) (by decide)
    (by decide) rfl

/- ------------------------------------------------------------------ -/
/- C2                                                                  -/
/- ------------------------------------------------------------------ -/

theorem enumFrom_filterMap_fst_lt {G : Type} (l : List (Option G)) :
    ∀ (k : Nat) (p : Nat × G),
      p ∈ (l.enumFrom k).filterMap (fun q => q.2.map (fun g => (q.1, g))) →
      p.1 < k + l.length := by
  induction l with
  | nil => intro k p hp; cases hp
  | cons a t ih =>
    intro k p hp
    cases a with
    | none =>
      simp only [List.enumFrom, List.filterMap_cons] at hp
      have := ih (k + 1) p hp
      simp only [List.length_cons]
      omega
    | some g =>
      simp only [List.enumFrom, List.filterMap_cons, Option.map_some] at hp
      rcases List.mem_cons.mp hp with rfl | hp'
      · simp only [List.length_cons]
        omega
      · have := ih (k + 1) p hp'
        simp only [List.length_cons]
        omega

theorem validPairs_fst_lt (e : GeoEngine R G) (fs : List (Feature R))
    (p : Nat × G) (hp : p ∈ validPairs e fs) : p.1 < fs.length := by
  unfold validPairs at hp
  have h := enumFrom_filterMap_fst_lt (fs.map (parseRepair e)) 0 p
    (by rw [List.enum] at hp; exact hp)
  rw [List.length_map] at h
  omega

theorem length_filterMap_of_isSome {α β : Type} (f : α → Option β) :
    ∀ l : List α, (∀ x ∈ l, (f x).isSome) → (l.filterMap f).length = l.length := by
  intro l
  induction l with
  | nil => intro _; rfl
  | cons a t ih =>
    intro hall
    rcases hb : f a with _ | b
    · have := hall a (List.mem_cons_self _ _)
      rw [hb] at this
      cases this
    · rw [List.filterMap_cons, hb, List.length_cons,
        ih (fun x hx => hall x (List.mem_cons_of_mem _ hx))]
      rfl

theorem merge_features_isSome (e : GeoEngine R G) (fs : List (Feature R))
    (h : fs ≠ []) : (merge_features e fs).isSome := by
  rcases fs with _ | ⟨f0, _ | ⟨f1, rest⟩⟩
  · exact absurd rfl h
  · rfl
  · rcases hp : parsedGeoms e (f0 :: f1 :: rest) with _ | ⟨g0, gsr⟩
    · simp [merge_features, hp]
    · simp [merge_features, hp]

theorem map_length_sum_eq_length {α : Type} (f : α → Nat) :
    ∀ L : List α, (∀ x ∈ L, f x = 1) → (L.map f).sum = L.length := by
  intro L
  induction L with
  | nil => intro _; rfl
  | cons a t ih =>
    intro hall
    rw [List.map_cons, List.sum_cons, hall a (List.mem_cons_self _ _),
      List.length_cons, ih (fun x hx => hall x (List.mem_cons_of_mem _ hx))]
    omega

/-- C2 (amended): in the merge orchestration, an owner group in which
at most one geometry parses successfully is passed through unchanged
(all features retained); but when two or more geometries parse, the
group's output consists of exactly one feature per connected component
of the parsed subset — features whose geometry failed to parse are not
re-spliced and are dropped from the output. -/
theorem processGroup_drop_char (e : GeoEngine R G) (fs : List (Feature R)) :
    ((parsedGeoms e fs).length ≤ 1 → processGroup e fs = fs) ∧
    (2 ≤ (parsedGeoms e fs).length →
      (processGroup e fs).length =
        (find_adjacent_groups e ((validPairs e fs).map (fun p => p.2))).length) := by
  constructor
  · intro hv
    by_cases hlen : fs.length = 1
    · simp [processGroup, hlen]
    · simp only [processGroup, if_neg hlen]
      have hlen2 : ((validPairs e fs).map (fun p => p.2)).length ≤ 1 := by
        rw [validPairs_snd]; exact hv
      rw [if_pos hlen2]
  · intro h2
    have hple : (parsedGeoms e fs).length ≤ fs.length := List.length_filterMap_le _ _
    have hlen1 : ¬ fs.length = 1 := by omega
    have hvlen : ¬ ((validPairs e fs).map (fun p => p.2)).length ≤ 1 := by
      rw [validPairs_snd]; omega
    simp only [processGroup, if_neg hlen1, if_neg hvlen]
    rw [List.length_flatten, List.map_map]
    apply map_length_sum_eq_length
    intro gl hgl
    obtain ⟨S1, S2, S3, S4, S5⟩ :=
      find_adjacent_groups_spec e ((validPairs e fs).map (fun p => p.2))
    obtain ⟨hne, hnd, hmem⟩ := S2 gl hgl
    have hall : ∀ i ∈ gl,
        ((((validPairs e fs).map (fun p => p.1)).get? i).bind
          (fun oi => fs.get? oi)).isSome := by
      intro i hi
      have hin : i < (validPairs e fs).length := by
        have := hmem i hi
        rwa [List.length_map] at this
      have hp1 : ((validPairs e fs).get ⟨i, hin⟩).1 < fs.length :=
        validPairs_fst_lt e fs _ (List.get_mem _ _ _)
      have hidx : (((validPairs e fs).map (fun p => p.1)).get? i)
          = some (((validPairs e fs).get ⟨i, hin⟩).1) := by
        rw [List.get?_map, List.get?_eq_get hin]
        rfl
      rw [hidx]
      show (fs.get? (((validPairs e fs).get ⟨i, hin⟩).1)).isSome
      rw [List.get?_eq_get hp1]
      rfl
    have hgflen : (gl.filterMap (fun i =>
        (((validPairs e fs).map (fun p => p.1)).get? i).bind
          (fun oi => fs.get? oi))).length = gl.length :=
      length_filterMap_of_isSome _ gl hall
    simp only [Function.comp]
    by_cases hgt : 1 < (gl.filterMap (fun i =>
        (((validPairs e fs).map (fun p => p.1)).get? i).bind
          (fun oi => fs.get? oi))).length
    · rw [if_pos hgt]
      have hne2 : gl.filterMap (fun i =>
          (((validPairs e fs).map (fun p => p.1)).get? i).bind
            (fun oi => fs.get? oi)) ≠ [] := by
        intro h0
        rw [h0] at hgt
        simp at hgt
      have hsome := merge_features_isSome e _ hne2
      rcases ho : merge_features e (gl.filterMap (fun i =>
          (((validPairs e fs).map (fun p => p.1)).get? i).bind
            (fun oi => fs.get? oi))) with _ | mf
      · rw [ho] at hsome
        cases hsome
      · rw [ho]
        rfl
    · rw [if_neg hgt]
      have h1 : gl.length ≠ 0 := fun h0 => hne (List.length_eq_zero.mp h0)
      omega

/-- Witness for C2 (amended): a two-feature group with one parse
failure passes through; a fully parseable two-feature group emits one
feature per component. -/
theorem processGroup_drop_char_witness :
    processGroup egParse13 [⟨13, []⟩, ⟨14, []⟩] = [⟨13, []⟩, ⟨14, []⟩] ∧
    (processGroup egBasic [⟨5, []⟩, ⟨6, []⟩]).length =
      (find_adjacent_groups egBasic
        ((validPairs egBasic [⟨5, []⟩, ⟨6, []⟩]).map (fun p => p.2))).length :=
  ⟨(processGroup_drop_char egParse13 [⟨13, []⟩, ⟨14, []⟩]).1 (by decide),
   (processGroup_drop_char egBasic [⟨5, []⟩, ⟨6, []⟩]).2 (by decide)⟩

def fp0 : Feature Nat :=
  ⟨0, [("ownername", PVal.str "a" none), ("parcelid", PVal.str "P1" none)]⟩

def fp1 : Feature Nat :=
  ⟨1, [("ownername", PVal.str "a" none), ("parcelid", PVal.str "P2" none)]⟩

def fp2 : Feature Nat :=
  ⟨13, [("ownername", PVal.str "a" none), ("parcelid", PVal.str "P3" none)]⟩

/-- C2 counterexample: three same-owner features of which the third has
an unparseable geometry while the first two merge; the merge output has
a single feature and the unparseable feature (parcel `P3`) is dropped,
not re-spliced, so a feature of the input collection is missing from
the merge output. -/
theorem unparseable_feature_dropped :
    ([fp0, fp1, fp2] : List (Feature Nat)).length = 3 ∧
    (merge_parcels egParse13 [fp0, fp1, fp2]).length = 1 ∧
    [fp0, fp1, fp2].map (fun f => pget f.properties "parcelid") =
      [some (.str "P1" none), some (.str "P2" none), some (.str "P3" none)] ∧
    (merge_parcels egParse13 [fp0, fp1, fp2]).map
        (fun f => pget f.properties "parcelid") = [some (.str "P1" none)] :=
  ⟨rfl, rfl, rfl, rfl⟩
